import Mathlib

/-!
Verification of the LyreBird audio stream analyzer
(`analysis/lyrebird_stream_analyzer.py`).

The development shallowly embeds the capture-and-analysis engine of
`AudioStreamAnalyzer`:

* the bounded per-stream queue with its drop-oldest overflow policy
  (`capture_stream_ffmpeg`, the `queue.Full` handler);
* the PCM byte decoding, zero padding and normalisation performed by a
  capture worker (`capture_stream_ffmpeg`, read loop);
* the spectral analyzer `analyze_frequency_spectrum` (Hann window, real
  FFT, power in dB);
* the metrics calculator `compute_statistics` (RMS/peak/crest levels,
  band powers over frequency masks, SNRs, centroid, rolloff);
* a per-stream model of the worker/coordinator loop of `analyze_streams`.

Machine floats are idealised as exact reals; IEEE special values
(infinities and NaN, which the Python code deliberately lets propagate)
are modelled by the inductive type `XR` below, and operations that raise
in Python (`np.max` of an empty array, indexing an empty cumulative sum)
are modelled by `Option`.
-/

namespace LyreBird

/-! ### Bounded per-stream buffer (drop-oldest policy)

`capture_stream_ffmpeg` pushes `(timestamp, frame)` pairs with
`put_nowait`; on `queue.Full` it pops the oldest entry with `get_nowait`
and pushes the new one, so the producer never blocks.  `queue.Queue` is
FIFO: `put` appends at the back, `get` removes from the front, so we
model buffer contents as a list whose head is the next element
dequeued. -/

/-- One enqueue into the bounded per-stream queue of capacity `K`:
if the buffer is not full the element is appended; otherwise the oldest
entry (the head) is evicted first.  Total function: the producer never
blocks. -/
def putDropOldest {α : Type} (K : ℕ) (buf : List α) (x : α) : List α :=
  if buf.length < K then buf ++ [x] else buf.tail ++ [x]

/-! ### PCM decoding and normalisation (capture worker)

The worker reads `chunk_bytes = chunk_size * 2` bytes of signed 16-bit
little-endian PCM, zero-pads a short (but non-empty) read, reinterprets
the bytes as `int16` (`np.frombuffer`) and divides by `32768.0`. -/

/-- Decode two bytes (little-endian order) as a signed 16-bit integer,
as `np.frombuffer(raw, dtype=np.int16)` does for each byte pair. -/
def decodeInt16 (lo hi : ℕ) : ℤ :=
  if lo + 256 * hi < 32768 then (lo + 256 * hi : ℤ) else (lo + 256 * hi : ℤ) - 65536

/-- Normalisation of one 16-bit sample code to a float:
`audio_data.astype(np.float32) / 32768.0`. -/
def pcmToFloat (c : ℤ) : ℚ := (c : ℚ) / 32768

/-- Reinterpret a byte string as consecutive little-endian 16-bit
samples and normalise each (`np.frombuffer` followed by the division by
`32768.0`).  A trailing odd byte is ignored (unreachable after padding:
the padded length is even). -/
def bytesToSamples : List ℕ → List ℚ
  | lo :: hi :: rest => pcmToFloat (decodeInt16 lo hi) :: bytesToSamples rest
  | _ => []

/-- Zero padding of a short read:
`raw_audio += b'\x00' * (chunk_bytes - len(raw_audio))`. -/
def padTo (n : ℕ) (raw : List ℕ) : List ℕ :=
  raw ++ List.replicate (n - raw.length) 0

/-- One iteration of the worker read loop, from the raw bytes returned
by `process.stdout.read(chunk_bytes)` to the enqueued frame: a zero-byte
read yields `none` (the worker logs a warning and breaks out of its
loop); a non-empty read is padded to `chunk_bytes = 2 * chunkSize` bytes
and converted to normalised samples. -/
def processRead (chunkSize : ℕ) (raw : List ℕ) : Option (List ℚ) :=
  match raw with
  | [] => none
  | b :: bs => some (bytesToSamples (padTo (2 * chunkSize) (b :: bs)))

/-- The frames produced by one capture worker from the successive reads
of its decode source, in order.  The loop stops at the first zero-byte
read (source unavailable); exhausting `reads` models the `running` flag
being cleared.  This is `capture_stream_ffmpeg`'s `while self.running`
loop with the queue operations factored out. -/
def captureLoop (chunkSize : ℕ) : List (List ℕ) → List (List ℚ)
  | [] => []
  | r :: rs =>
    match processRead chunkSize r with
    | none => []
    | some f => f :: captureLoop chunkSize rs

/-! ### Extended float values

The metrics code deliberately produces IEEE special values: an empty
band mask yields `-np.inf`, subtracting two `-inf` band powers yields
NaN, and `np.log10(0.0)` yields `-inf`.  `XR` models a float that is
either an (exact) finite real or one of those special values. -/

/-- A float result: finite real, positive infinity, negative infinity,
or NaN. -/
inductive XR : Type where
  | fin : ℝ → XR
  | pinf : XR
  | ninf : XR
  | nan : XR

/-- IEEE-style subtraction on extended values: NaN is absorbing and
`(-inf) - (-inf)` (and `inf - inf`) is NaN. -/
def XR.sub : XR → XR → XR
  | XR.nan, _ => XR.nan
  | _, XR.nan => XR.nan
  | XR.fin a, XR.fin b => XR.fin (a - b)
  | XR.fin _, XR.pinf => XR.ninf
  | XR.fin _, XR.ninf => XR.pinf
  | XR.pinf, XR.fin _ => XR.pinf
  | XR.pinf, XR.pinf => XR.nan
  | XR.pinf, XR.ninf => XR.pinf
  | XR.ninf, XR.fin _ => XR.ninf
  | XR.ninf, XR.pinf => XR.ninf
  | XR.ninf, XR.ninf => XR.nan

/-- IEEE-style scaling of an extended value by a real constant (used
with the positive constants `10` and `20` of the dB conversions). -/
noncomputable def XR.smul (c : ℝ) : XR → XR
  | XR.fin a => XR.fin (c * a)
  | XR.pinf => if 0 < c then XR.pinf else if c < 0 then XR.ninf else XR.nan
  | XR.ninf => if 0 < c then XR.ninf else if c < 0 then XR.pinf else XR.nan
  | XR.nan => XR.nan

/-- `np.log10` with float semantics: finite logarithm of a positive
argument, `-inf` at zero, NaN for negative arguments. -/
noncomputable def flog10 (x : ℝ) : XR :=
  if 0 < x then XR.fin (Real.logb 10 x) else if x = 0 then XR.ninf else XR.nan

/-- Float division `x / y` with numpy semantics at `y = 0`
(`inf`, `-inf` or NaN depending on the sign of `x`). -/
noncomputable def npDiv (x y : ℝ) : XR :=
  if y = 0 then
    if 0 < x then XR.pinf else if x < 0 then XR.ninf else XR.nan
  else XR.fin (x / y)

/-- `np.mean` of a non-empty list (on an empty list numpy returns NaN;
every call below is guarded by a non-emptiness check). -/
noncomputable def npMean (xs : List ℝ) : ℝ := xs.sum / xs.length

/-! ### Spectral analyzer (`analyze_frequency_spectrum`) -/

/-- The symmetric Hann window of `scipy.signal.windows.hann`:
`w[n] = 0.5 * (1 - cos(2 pi n / (M - 1)))` for `n = 0, ..., M-1`, with
the single-point window special-cased to `[1]`. -/
noncomputable def hann (M : ℕ) : List ℝ :=
  if M = 1 then [1]
  else (List.range M).map
    (fun j : ℕ => 0.5 * (1 - Real.cos (2 * Real.pi * (j : ℝ) / ((M : ℝ) - 1))))

/-- Bin `k` of the discrete Fourier transform of a real signal:
`sum_n x[n] * exp(-2 pi i k n / N)`. -/
noncomputable def dftVal (x : List ℝ) (k : ℕ) : ℂ :=
  ∑ n ∈ Finset.range x.length,
    (x.getD n 0 : ℂ) * Complex.exp (-(2 * Real.pi * Complex.I * k * n) / (x.length : ℂ))

/-- `scipy.fft.rfft`: the first `N/2 + 1` DFT bins of a real signal. -/
noncomputable def rfft (x : List ℝ) : List ℂ :=
  (List.range (x.length / 2 + 1)).map (dftVal x)

/-- `scipy.fft.rfftfreq(n, 1/sample_rate)`: the `n/2 + 1` bin centre
frequencies `k * sample_rate / n`. -/
def rfftfreq (n : ℕ) (sampleRate : ℚ) : List ℚ :=
  (List.range (n / 2 + 1)).map (fun k : ℕ => (k : ℚ) * sampleRate / (n : ℚ))

/-- `analyze_frequency_spectrum`: Hann window, real FFT, squared
magnitude, dB conversion with the `1e-10` additive floor.  Returns the
frequency axis and the parallel `psd_db` sequence. -/
noncomputable def analyze_frequency_spectrum (sampleRate : ℚ) (audio : List ℝ) :
    List ℚ × List ℝ :=
  let window := hann audio.length
  let windowed := List.zipWith (· * ·) audio window
  let fft_vals := rfft windowed
  let fft_freq := rfftfreq audio.length sampleRate
  let psd := fft_vals.map (fun c => Complex.abs c ^ 2)
  let psd_db := psd.map (fun p => 10 * Real.logb 10 (p + 1e-10))
  (fft_freq, psd_db)

/-! ### Quality metrics calculator (`compute_statistics`) -/

/-- A numpy boolean mask over the frequency axis, e.g.
`low_mask = freq < 1000`. -/
def lowMask (freq : List ℚ) : List Bool :=
  freq.map (fun f => decide (f < 1000))

/-- `mid_mask = (freq >= 1000) & (freq < 3000)`. -/
def midMask (freq : List ℚ) : List Bool :=
  freq.map (fun f => decide (1000 ≤ f ∧ f < 3000))

/-- `bird_mask = (freq >= 3000) & (freq <= 8000)`. -/
def birdMask (freq : List ℚ) : List Bool :=
  freq.map (fun f => decide (3000 ≤ f ∧ f ≤ 8000))

/-- `high_mask = freq > 8000`. -/
def highMask (freq : List ℚ) : List Bool :=
  freq.map (fun f => decide (8000 < f))

/-- Numpy boolean indexing `xs[mask]`: keep the entries whose mask bit
is true. -/
def maskSelect (mask : List Bool) (xs : List ℝ) : List ℝ :=
  (mask.zip xs).filterMap (fun q => if q.1 then some q.2 else none)

/-- One band power:
`np.mean(psd_db[mask]) if np.any(mask) else -np.inf`. -/
noncomputable def bandPower (mask : List Bool) (psd_db : List ℝ) : XR :=
  if mask.any id then XR.fin (npMean (maskSelect mask psd_db)) else XR.ninf

/-- `np.cumsum`: running prefix sums, same length as the input. -/
def cumsum (xs : List ℝ) : List ℝ :=
  (xs.scanl (· + ·) 0).tail

/-- Index of the first entry `≥ t`, i.e.
`np.where(cumsum >= t)[0][0]` when it exists
(`np.where(...)[0]` is empty otherwise). -/
noncomputable def firstIdxGe (t : ℝ) : List ℝ → Option ℕ
  | [] => none
  | c :: cs => if t ≤ c then some 0 else (firstIdxGe t cs).map (· + 1)

/-- The record of statistics produced by `compute_statistics`.  The
linear-domain `rms`, `peak` and `crest_factor` are always finite floats;
the dB-domain and ratio metrics can be `-inf` or NaN and are `XR`. -/
structure Stats : Type where
  rms : ℝ
  rms_db : XR
  peak : ℝ
  peak_db : XR
  crest_factor : ℝ
  crest_factor_db : XR
  low_freq_power : XR
  mid_freq_power : XR
  bird_freq_power : XR
  high_freq_power : XR
  snr_bird_to_low : XR
  snr_bird_to_mid : XR
  spectral_centroid : XR
  spectral_rolloff : ℚ

/-- The body of `compute_statistics` on non-empty samples `a :: as` and
non-empty spectrum `p :: ps`, mirroring the source line by line:
RMS and peak with the `1e-10` dB floor, crest factor (whose dB
conversion has no floor), the four band powers over the frequency
masks, the two SNR differences, the `power_db`-weighted centroid and
the 85% cumulative-sum rolloff (sentinel `0` when no bin reaches the
threshold). -/
noncomputable def statsCore (a : ℝ) (as : List ℝ) (freq : List ℚ) (p : ℝ) (ps : List ℝ) :
    Stats :=
    let audioL := a :: as
    let psdL := p :: ps
    let rms := Real.sqrt (npMean (audioL.map (fun x => x ^ 2)))
    let rms_db := XR.smul 20 (flog10 (rms + 1e-10))
    let peak := (as.map (fun x => |x|)).foldl max |a|
    let peak_db := XR.smul 20 (flog10 (peak + 1e-10))
    let crest := peak / (rms + 1e-10)
    let crest_db := XR.smul 20 (flog10 crest)
    let low := bandPower (lowMask freq) psdL
    let mid := bandPower (midMask freq) psdL
    let bird := bandPower (birdMask freq) psdL
    let high := bandPower (highMask freq) psdL
    let centroid :=
      npDiv (List.zipWith (fun f x => (f : ℝ) * x) freq psdL).sum psdL.sum
    let cs := cumsum psdL
    let rolloff : ℚ :=
      match firstIdxGe (0.85 * cs.getLastD 0) cs with
      | some i => freq.getD i 0
      | none => 0
    { rms := rms
      rms_db := rms_db
      peak := peak
      peak_db := peak_db
      crest_factor := crest
      crest_factor_db := crest_db
      low_freq_power := low
      mid_freq_power := mid
      bird_freq_power := bird
      high_freq_power := high
      snr_bird_to_low := XR.sub bird low
      snr_bird_to_mid := XR.sub bird mid
      spectral_centroid := centroid
      spectral_rolloff := rolloff }

/-- `compute_statistics(audio_data, freq, psd_db)`.  Returns `none` in
the two cases where the Python function raises: `np.max` of an empty
sample array (ValueError) and `cumsum[-1]` of an empty spectrum
(IndexError); otherwise computes the `Stats` record of `statsCore`. -/
noncomputable def compute_statistics (audio : List ℝ) (freq : List ℚ) (psd_db : List ℝ) :
    Option Stats :=
  match audio, psd_db with
  | [], _ => none
  | _ :: _, [] => none
  | a :: as, p :: ps => some (statsCore a as freq p ps)

/-- The mean of the `power_db` entries whose frequency satisfies `p`,
written directly from the specification words: the arithmetic mean of
`power_db` over the bins selected by the band predicate. -/
noncomputable def bandSelect (p : ℚ → Prop) [DecidablePred p]
    (freq : List ℚ) (psd_db : List ℝ) : List ℝ :=
  (freq.zip psd_db).filterMap (fun q => if p q.1 then some q.2 else none)

/-! ### Coordinator run model (`analyze_streams`)

`analyze_streams` spawns one capture thread per stream; each thread
reads from its own decode source and touches only its own queue
(`self.audio_queues[stream_name]`), and the coordinator drains each
stream's queue independently inside its timed loop, so per-stream state
is fully separated.  We model the run as a deterministic tick
progression per stream: in one tick the stream's worker performs one
read iteration and the coordinator then performs one drain attempt for
that stream.  The wall-clock deadline becomes a tick budget, after
which the coordinator clears `running` and the run is `DONE`
(`analyze_streams` always reaches its epilogue: worker joins use a
bounded timeout and worker death never raises into the coordinator). -/

/-- Coordinator phases (section 4.5 of the design). -/
inductive Phase : Type where
  | IDLE : Phase
  | RUNNING : Phase
  | STOPPING : Phase
  | DONE : Phase
deriving DecidableEq

/-- Per-stream state: the pending reads of its decode source, whether
its capture worker is still alive, its bounded buffer, and the history
accumulated for it by the coordinator. -/
structure StreamState : Type where
  reads : List (List ℕ)
  alive : Bool
  buf : List (List ℚ)
  hist : List (List ℚ)

/-- One read iteration of a stream's capture worker: a zero-byte read
kills this worker for good (it never touches the history); otherwise
the converted frame is enqueued with the drop-oldest policy.  A dead
worker does nothing. -/
def workerTick (chunkSize K : ℕ) (s : StreamState) : StreamState :=
  if s.alive then
    match s.reads with
    | [] => s
    | r :: rs =>
      match processRead chunkSize r with
      | none => { s with reads := rs, alive := false }
      | some f => { s with reads := rs, buf := putDropOldest K s.buf f }
  else s

/-- One drain attempt of the coordinator for one stream: an empty
buffer makes it move on (`queue.Empty`); otherwise the oldest frame is
dequeued, analyzed and appended to the stream's history. -/
def drainTick (s : StreamState) : StreamState :=
  match s.buf with
  | [] => s
  | f :: rest => { s with buf := rest, hist := s.hist ++ [f] }

/-- One tick of a stream: one worker read iteration followed by one
coordinator drain attempt. -/
def streamTick (chunkSize K : ℕ) (s : StreamState) : StreamState :=
  drainTick (workerTick chunkSize K s)

/-- `d` ticks of one stream. -/
def streamRun (chunkSize K : ℕ) : ℕ → StreamState → StreamState
  | 0, s => s
  | d + 1, s => streamRun chunkSize K d (streamTick chunkSize K s)

/-- The initial state of a stream whose decode source will produce the
given reads. -/
def initStream (reads : List (List ℕ)) : StreamState :=
  { reads := reads, alive := true, buf := [], hist := [] }

/-- The whole run of `analyze_streams` under a tick budget `d`: every
stream progresses independently (mirroring the per-stream separation of
queues and threads in the source), and the coordinator always reaches
`DONE` regardless of individual worker outcomes. -/
def analyze_streams (chunkSize K d : ℕ) (sources : List (List (List ℕ))) :
    List (List (List ℚ)) × Phase :=
  (sources.map (fun src => (streamRun chunkSize K d (initStream src)).hist), Phase.DONE)

/-! ### Per-stream enqueue/dequeue trace model (history invariants)

For the `StreamHistory` invariants we abstract a frame to its
timestamp and consider an arbitrary interleaving of the producer's
enqueues (with the drop-oldest policy) and the coordinator's dequeues;
each successful dequeue is analyzed and appended to the history by the
coordinator (and by nobody else). -/

/-- One event on a single stream's queue: the worker enqueues a frame
carrying timestamp `t`, or the coordinator attempts a dequeue. -/
inductive QueueOp : Type where
  | enq : ℚ → QueueOp
  | deq : QueueOp

/-- State of the per-stream trace: buffer contents (head = next out),
the coordinator's history of analyzed timestamps, and how many frames
were successfully dequeued and analyzed. -/
structure TraceState : Type where
  buf : List ℚ
  hist : List ℚ
  analyzed : ℕ

/-- One trace step: an enqueue uses the drop-oldest policy; a dequeue
on an empty buffer does nothing (`queue.Empty` makes the coordinator
move on), and otherwise removes the oldest frame, analyzes it and
appends it to the history. -/
def traceStep (K : ℕ) (s : TraceState) : QueueOp → TraceState
  | QueueOp.enq t => { s with buf := putDropOldest K s.buf t }
  | QueueOp.deq =>
    match s.buf with
    | [] => s
    | t :: rest => { buf := rest, hist := s.hist ++ [t], analyzed := s.analyzed + 1 }

/-- Run a whole trace from the empty initial state. -/
def traceRun (K : ℕ) (ops : List QueueOp) : TraceState :=
  ops.foldl (traceStep K) { buf := [], hist := [], analyzed := 0 }

/-- The timestamps enqueued along a trace, in order. -/
def enqStamps (ops : List QueueOp) : List ℚ :=
  ops.filterMap (fun op => match op with | QueueOp.enq t => some t | QueueOp.deq => none)

/-! ## Lemmas and claim theorems -/

theorem putDropOldest_length_le {α : Type} (K : ℕ) (buf : List α) (x : α)
    (hK : 0 < K) (h : buf.length ≤ K) : (putDropOldest K buf x).length ≤ K := by
  by_cases hlt : buf.length < K
  · simp only [putDropOldest, if_pos hlt, List.length_append, List.length_cons,
      List.length_nil]
    omega
  · simp only [putDropOldest, if_neg hlt, List.length_append, List.length_tail,
      List.length_cons, List.length_nil]
    omega

theorem foldl_putDropOldest {α : Type} (K : ℕ) (hK : 0 < K) (xs : List α) :
    ∀ buf : List α, buf.length ≤ K →
      List.foldl (putDropOldest K) buf xs = (buf ++ xs).drop (buf.length + xs.length - K) := by
  induction xs with
  | nil =>
    intro buf h
    have h0 : buf.length + ([] : List α).length - K = 0 := by
      simp only [List.length_nil]
      omega
    rw [List.foldl_nil, List.append_nil, h0, List.drop_zero]
  | cons x rest ih =>
    intro buf h
    rw [List.foldl_cons]
    by_cases hlt : buf.length < K
    · rw [show putDropOldest K buf x = buf ++ [x] from if_pos hlt]
      have hb1 : (buf ++ [x]).length ≤ K := by
        simp only [List.length_append, List.length_cons, List.length_nil]
        omega
      rw [ih (buf ++ [x]) hb1]
      have e1 : (buf ++ [x]) ++ rest = buf ++ x :: rest := by simp
      have e2 : (buf ++ [x]).length + rest.length - K =
          buf.length + (x :: rest).length - K := by
        simp only [List.length_append, List.length_cons, List.length_nil]
        omega
      rw [e1, e2]
    · have hlen : buf.length = K := by omega
      have hbne : buf ≠ [] := by
        intro e
        rw [e] at hlen
        simp only [List.length_nil] at hlen
        omega
      obtain ⟨b, bs, rfl⟩ := List.exists_cons_of_ne_nil hbne
      rw [show putDropOldest K (b :: bs) x = bs ++ [x] from by
        simp only [putDropOldest, if_neg hlt, List.tail_cons]]
      have hb2 : (bs ++ [x]).length ≤ K := by
        simp only [List.length_cons] at hlen
        simp only [List.length_append, List.length_cons, List.length_nil]
        omega
      rw [ih (bs ++ [x]) hb2]
      have e1 : (bs ++ [x]) ++ rest = bs ++ x :: rest := by simp
      have e2 : (bs ++ [x]).length + rest.length - K = rest.length := by
        simp only [List.length_append, List.length_cons, List.length_nil] at hlen ⊢
        omega
      have e3 : (b :: bs).length + (x :: rest).length - K = rest.length + 1 := by
        simp only [List.length_cons] at hlen ⊢
        omega
      rw [e1, e2, e3, List.cons_append, List.drop_succ_cons]

/-- C1: for every positive capacity `K`, a per-stream buffer never holds
more than `K` entries; enqueuing `K + 1` frames in order with no
intervening dequeues leaves exactly the `K` most recent frames in FIFO
order; and with capacity 2, enqueuing `A, B, C` and draining yields `B`
then `C` (`A` evicted before the newest is admitted; `putDropOldest` is
a total function, so the producer never blocks). -/
theorem c1_buffer_bound_and_eviction {α : Type} (K : ℕ) (hK : 0 < K) :
    (∀ xs buf : List α, buf.length ≤ K →
        (List.foldl (putDropOldest K) buf xs).length ≤ K)
  ∧ (∀ xs : List α, xs.length = K + 1 →
        List.foldl (putDropOldest K) ([] : List α) xs = xs.drop 1)
  ∧ (∀ a b c : α, List.foldl (putDropOldest 2) ([] : List α) [a, b, c] = [b, c]) := by
  refine ⟨?_, ?_, ?_⟩
  · intro xs buf h
    rw [foldl_putDropOldest K hK xs buf h, List.length_drop, List.length_append]
    omega
  · intro xs hlen
    rw [foldl_putDropOldest K hK xs [] (by simp)]
    have h1 : ([] : List α).length + xs.length - K = 1 := by
      simp only [List.length_nil, hlen]
      omega
    rw [h1, List.nil_append]
  · intro a b c
    rfl

/-- Witness for C1: capacity 2, frames 10, 20, 30. -/
theorem c1_witness :
    List.foldl (putDropOldest 2) ([] : List ℕ) [10, 20, 30] = [20, 30] ∧
    (List.foldl (putDropOldest 2) ([] : List ℕ) [10, 20, 30]).length ≤ 2 :=
  ⟨(c1_buffer_bound_and_eviction 2 (by decide)).2.2 10 20 30,
   (c1_buffer_bound_and_eviction 2 (by decide)).1 [10, 20, 30] [] (by decide)⟩

/-- C6: the PCM-to-float conversion maps every 16-bit signed code into
`[-1, 1)`, exactly `-1` at code `-32768` and `32767/32768 < 1` at code
`32767`; and every decoded byte pair lies in the 16-bit signed range. -/
theorem c6_pcm_to_float (c : ℤ) (h1 : -32768 ≤ c) (h2 : c ≤ 32767) :
    (-1 ≤ pcmToFloat c ∧ pcmToFloat c < 1)
  ∧ pcmToFloat (-32768) = -1
  ∧ pcmToFloat 32767 = 32767 / 32768
  ∧ (32767 : ℚ) / 32768 < 1
  ∧ (∀ lo hi : ℕ, lo < 256 → hi < 256 →
        -32768 ≤ decodeInt16 lo hi ∧ decodeInt16 lo hi ≤ 32767) := by
  refine ⟨⟨?_, ?_⟩, ?_, ?_, ?_, ?_⟩
  · unfold pcmToFloat
    rw [le_div_iff₀ (by norm_num : (0 : ℚ) < 32768)]
    have : (-32768 : ℚ) ≤ (c : ℚ) := by exact_mod_cast h1
    linarith
  · unfold pcmToFloat
    rw [div_lt_one (by norm_num : (0 : ℚ) < 32768)]
    exact_mod_cast (by omega : c < 32768)
  · norm_num [pcmToFloat]
  · norm_num [pcmToFloat]
  · norm_num
  · intro lo hi hlo hhi
    unfold decodeInt16
    split <;> omega

/-- Witness for C6 at code -5. -/
theorem c6_witness : -1 ≤ pcmToFloat (-5) ∧ pcmToFloat (-5) < 1 :=
  (c6_pcm_to_float (-5) (by decide) (by decide)).1

theorem bytesToSamples_length : ∀ bs : List ℕ, (bytesToSamples bs).length = bs.length / 2
  | [] => by simp [bytesToSamples]
  | [b] => by simp [bytesToSamples]
  | lo :: hi :: rest => by
    simp only [bytesToSamples, List.length_cons, bytesToSamples_length rest]
    omega

theorem padTo_length (n : ℕ) (raw : List ℕ) (h : raw.length ≤ n) :
    (padTo n raw).length = n := by
  simp only [padTo, List.length_append, List.length_replicate]
  omega

theorem processRead_length (chunkSize : ℕ) (b : ℕ) (bs : List ℕ)
    (hle : (b :: bs).length ≤ 2 * chunkSize) :
    ∃ frame, processRead chunkSize (b :: bs) = some frame ∧ frame.length = chunkSize := by
  refine ⟨_, rfl, ?_⟩
  rw [bytesToSamples_length, padTo_length _ _ hle]
  omega

/-- C8: a non-empty read of at most `chunk_bytes = 2 * chunkSize` bytes
always produces a frame of exactly `chunkSize` samples (short reads are
zero-padded before conversion), and consequently every frame a capture
worker enqueues has exactly that fixed length. -/
theorem c8_fixed_frame_length (chunkSize : ℕ) (raw : List ℕ)
    (hne : raw ≠ []) (hle : raw.length ≤ 2 * chunkSize) :
    (∃ frame, processRead chunkSize raw = some frame ∧ frame.length = chunkSize)
  ∧ (∀ reads : List (List ℕ), (∀ r ∈ reads, r.length ≤ 2 * chunkSize) →
        ∀ f ∈ captureLoop chunkSize reads, f.length = chunkSize) := by
  constructor
  · obtain ⟨b, bs, rfl⟩ := List.exists_cons_of_ne_nil hne
    exact processRead_length chunkSize b bs hle
  · intro reads
    induction reads with
    | nil => intro _ f hf; simp [captureLoop] at hf
    | cons r rs ih =>
      intro hall f hf
      cases r with
      | nil => simp [captureLoop, processRead] at hf
      | cons b bs =>
        obtain ⟨frame, heq, hlen⟩ :=
          processRead_length chunkSize b bs (hall _ (by simp))
        rw [captureLoop, heq] at hf
        simp only [List.mem_cons] at hf
        rcases hf with rfl | hf
        · exact hlen
        · exact ih (fun r hr => hall r (by simp [hr])) f hf

/-- Witness for C8: one truncated 3-byte read with chunk size 2. -/
theorem c8_witness :
    ∃ frame, processRead 2 [1, 2, 3] = some frame ∧ frame.length = 2 :=
  (c8_fixed_frame_length 2 [1, 2, 3] (by simp) (by decide)).1

theorem logb_ten_floor : Real.logb 10 (1e-10 : ℝ) = -10 := by
  have h : (1e-10 : ℝ) = (10 : ℝ) ^ (-10 : ℤ) := by norm_num
  have hlog : Real.log 10 ≠ 0 := ne_of_gt (Real.log_pos (by norm_num))
  rw [h, Real.logb, Real.log_zpow, mul_div_assoc, div_self hlog, mul_one]
  norm_num

theorem foldl_max_replicate_zero :
    ∀ m : ℕ, List.foldl max (0 : ℝ) (List.replicate m 0) = 0
  | 0 => rfl
  | m + 1 => by
    simp only [List.replicate_succ, List.foldl_cons, max_self]
    exact foldl_max_replicate_zero m

theorem silent_statsCore_rms (m : ℕ) (freq : List ℚ) (p : ℝ) (ps : List ℝ) :
    (statsCore 0 (List.replicate m 0) freq p ps).rms = 0 := by
  show Real.sqrt (npMean ((0 :: List.replicate m 0).map (fun x => x ^ 2))) = 0
  have h : ((0 : ℝ) :: List.replicate m 0).map (fun x => x ^ 2) =
      0 :: List.replicate m 0 := by
    simp [List.map_replicate]
  rw [h]
  have hsum : ((0 : ℝ) :: List.replicate m 0).sum = 0 := by
    simp [List.sum_replicate]
  unfold npMean
  rw [hsum, zero_div, Real.sqrt_zero]

theorem silent_statsCore_peak (m : ℕ) (freq : List ℚ) (p : ℝ) (ps : List ℝ) :
    (statsCore 0 (List.replicate m 0) freq p ps).peak = 0 := by
  show ((List.replicate m (0 : ℝ)).map (fun x => |x|)).foldl max |(0 : ℝ)| = 0
  rw [List.map_replicate]
  simp only [abs_zero]
  exact foldl_max_replicate_zero m

theorem smul_twenty_floor : XR.smul 20 (flog10 ((0 : ℝ) + 1e-10)) = XR.fin (-200) := by
  rw [zero_add]
  unfold flog10
  rw [if_pos (show (0 : ℝ) < 1e-10 by norm_num)]
  show XR.fin (20 * Real.logb 10 (1e-10 : ℝ)) = XR.fin (-200)
  rw [logb_ten_floor]
  norm_num

/-- C7: a silent frame of any positive length yields the finite value
`rms_db = 20 * log10(1e-10) = -200 dB` (the `1e-10` floor is added to
the RMS before the logarithm), never `-inf` or NaN. -/
theorem c7_silent_rms_db (n : ℕ) (hn : 0 < n) (freq : List ℚ) (p : ℝ) (ps : List ℝ) :
    ∃ s, compute_statistics (List.replicate n 0) freq (p :: ps) = some s
      ∧ s.rms = 0
      ∧ s.rms_db = XR.fin (20 * Real.logb 10 (1e-10 : ℝ))
      ∧ s.rms_db = XR.fin (-200) := by
  obtain ⟨m, rfl⟩ : ∃ m, n = m + 1 := ⟨n - 1, by omega⟩
  rw [List.replicate_succ]
  refine ⟨statsCore 0 (List.replicate m 0) freq p ps, rfl, silent_statsCore_rms m freq p ps,
    ?_, ?_⟩
  · have hdb : (statsCore 0 (List.replicate m 0) freq p ps).rms_db =
        XR.smul 20 (flog10 ((statsCore 0 (List.replicate m 0) freq p ps).rms + 1e-10)) := rfl
    rw [hdb, silent_statsCore_rms m freq p ps, zero_add]
    unfold flog10
    rw [if_pos (show (0 : ℝ) < 1e-10 by norm_num)]
    rfl
  · have hdb : (statsCore 0 (List.replicate m 0) freq p ps).rms_db =
        XR.smul 20 (flog10 ((statsCore 0 (List.replicate m 0) freq p ps).rms + 1e-10)) := rfl
    rw [hdb, silent_statsCore_rms m freq p ps]
    exact smul_twenty_floor

/-- Witness for C7: a silent frame of length 3. -/
theorem c7_witness :
    ∃ s, compute_statistics (List.replicate 3 (0 : ℝ)) [] [(0 : ℝ)] = some s
      ∧ s.rms = 0
      ∧ s.rms_db = XR.fin (20 * Real.logb 10 (1e-10 : ℝ))
      ∧ s.rms_db = XR.fin (-200) :=
  c7_silent_rms_db 3 (by decide) [] 0 []

/-- C10: for a silent frame, `crest_factor = 0 / (0 + 1e-10) = 0` and
its dB conversion, which unlike `rms_db` and `peak_db` has no additive
floor inside the logarithm, is `20 * log10(0) = -inf` at the public
metrics interface (while `peak_db` itself stays finite at `-200`). -/
theorem c10_silent_crest_factor (n : ℕ) (hn : 0 < n) (freq : List ℚ) (p : ℝ) (ps : List ℝ) :
    ∃ s, compute_statistics (List.replicate n 0) freq (p :: ps) = some s
      ∧ s.crest_factor = 0
      ∧ s.crest_factor_db = XR.ninf
      ∧ s.peak_db = XR.fin (-200) := by
  obtain ⟨m, rfl⟩ : ∃ m, n = m + 1 := ⟨n - 1, by omega⟩
  rw [List.replicate_succ]
  have hcrest : (statsCore 0 (List.replicate m 0) freq p ps).crest_factor = 0 := by
    have hc : (statsCore 0 (List.replicate m 0) freq p ps).crest_factor =
        (statsCore 0 (List.replicate m 0) freq p ps).peak /
          ((statsCore 0 (List.replicate m 0) freq p ps).rms + 1e-10) := rfl
    rw [hc, silent_statsCore_peak m freq p ps, zero_div]
  refine ⟨statsCore 0 (List.replicate m 0) freq p ps, rfl, hcrest, ?_, ?_⟩
  · have hdb : (statsCore 0 (List.replicate m 0) freq p ps).crest_factor_db =
        XR.smul 20 (flog10 ((statsCore 0 (List.replicate m 0) freq p ps).crest_factor)) := rfl
    rw [hdb, hcrest]
    unfold flog10
    rw [if_neg (show ¬ (0 : ℝ) < 0 by norm_num), if_pos rfl]
    show (if (0 : ℝ) < 20 then XR.ninf else if (20 : ℝ) < 0 then XR.pinf else XR.nan) = XR.ninf
    rw [if_pos (show (0 : ℝ) < 20 by norm_num)]
  · have hdb : (statsCore 0 (List.replicate m 0) freq p ps).peak_db =
        XR.smul 20 (flog10 ((statsCore 0 (List.replicate m 0) freq p ps).peak + 1e-10)) := rfl
    rw [hdb, silent_statsCore_peak m freq p ps]
    exact smul_twenty_floor

/-- Witness for C10: a silent frame of length 2. -/
theorem c10_witness :
    ∃ s, compute_statistics (List.replicate 2 (0 : ℝ)) [] [(1 : ℝ)] = some s
      ∧ s.crest_factor = 0
      ∧ s.crest_factor_db = XR.ninf
      ∧ s.peak_db = XR.fin (-200) :=
  c10_silent_crest_factor 2 (by decide) [] 1 []

theorem maskSelect_map (p : ℚ → Prop) [DecidablePred p] :
    ∀ (freq : List ℚ) (psd : List ℝ),
      maskSelect (freq.map fun f => decide (p f)) psd = bandSelect p freq psd
  | [], psd => by simp [maskSelect, bandSelect]
  | f :: fs, [] => by simp [maskSelect, bandSelect]
  | f :: fs, x :: xs => by
    have ih := maskSelect_map p fs xs
    unfold maskSelect bandSelect at ih ⊢
    by_cases hp : p f
    · simp [hp, ih]
    · simp [hp, ih]

theorem bandPower_eq (p : ℚ → Prop) [DecidablePred p] (freq : List ℚ) (psd : List ℝ) :
    bandPower (freq.map fun f => decide (p f)) psd =
      if ∃ f ∈ freq, p f then XR.fin (npMean (bandSelect p freq psd)) else XR.ninf := by
  unfold bandPower
  rw [maskSelect_map]
  by_cases h : ∃ f ∈ freq, p f
  · have hb : (freq.map fun f => decide (p f)).any id = true := by
      simpa [List.any_eq_true] using h
    simp [hb, h]
  · have hb : ¬ (freq.map fun f => decide (p f)).any id = true := by
      simpa [List.any_eq_true] using h
    simp [hb, h]

/-- C2: each band power equals the arithmetic mean of `power_db` over
the bins selected by that band's frequency mask (low below 1000 Hz, mid
in `[1000, 3000)`, bird in `[3000, 8000]`, high above 8000 Hz); an empty
mask yields `-inf` rather than an error; the two SNR metrics are the
bird-minus-low and bird-minus-mid differences; and `-inf - (-inf)`
propagates as NaN (shown on a spectrum whose only bin is at 1500 Hz)
instead of being trapped. -/
theorem c2_band_powers_and_snr (audio : List ℝ) (freq : List ℚ) (psd : List ℝ)
    (ha : audio ≠ []) (hp : psd ≠ []) :
    ∃ s, compute_statistics audio freq psd = some s
      ∧ s.low_freq_power =
          (if ∃ f ∈ freq, f < 1000 then
            XR.fin (npMean (bandSelect (fun f => f < 1000) freq psd)) else XR.ninf)
      ∧ s.mid_freq_power =
          (if ∃ f ∈ freq, 1000 ≤ f ∧ f < 3000 then
            XR.fin (npMean (bandSelect (fun f => 1000 ≤ f ∧ f < 3000) freq psd)) else XR.ninf)
      ∧ s.bird_freq_power =
          (if ∃ f ∈ freq, 3000 ≤ f ∧ f ≤ 8000 then
            XR.fin (npMean (bandSelect (fun f => 3000 ≤ f ∧ f ≤ 8000) freq psd)) else XR.ninf)
      ∧ s.high_freq_power =
          (if ∃ f ∈ freq, 8000 < f then
            XR.fin (npMean (bandSelect (fun f => 8000 < f) freq psd)) else XR.ninf)
      ∧ s.snr_bird_to_low = XR.sub s.bird_freq_power s.low_freq_power
      ∧ s.snr_bird_to_mid = XR.sub s.bird_freq_power s.mid_freq_power
      ∧ (∃ s2, compute_statistics [0] [1500] [0] = some s2
          ∧ s2.low_freq_power = XR.ninf
          ∧ s2.bird_freq_power = XR.ninf
          ∧ s2.snr_bird_to_low = XR.nan) := by
  obtain ⟨a, as, rfl⟩ := List.exists_cons_of_ne_nil ha
  obtain ⟨p0, ps, rfl⟩ := List.exists_cons_of_ne_nil hp
  refine ⟨statsCore a as freq p0 ps, rfl, ?_, ?_, ?_, ?_, rfl, rfl, ?_⟩
  · exact bandPower_eq (fun f => f < 1000) freq (p0 :: ps)
  · exact bandPower_eq (fun f => 1000 ≤ f ∧ f < 3000) freq (p0 :: ps)
  · exact bandPower_eq (fun f => 3000 ≤ f ∧ f ≤ 8000) freq (p0 :: ps)
  · exact bandPower_eq (fun f => 8000 < f) freq (p0 :: ps)
  · exact ⟨statsCore 0 [] [1500] 0 [], rfl, rfl, rfl, rfl⟩

/-- Witness for C2: a one-bin spectrum at 1500 Hz, where both the low
and the bird masks are empty and the SNR is NaN. -/
theorem c2_witness :
    ∃ s2, compute_statistics [(0 : ℝ)] [(1500 : ℚ)] [(0 : ℝ)] = some s2
      ∧ s2.low_freq_power = XR.ninf
      ∧ s2.bird_freq_power = XR.ninf
      ∧ s2.snr_bird_to_low = XR.nan := by
  obtain ⟨s, hs, h1, h2, h3, h4, h5, h6, h7⟩ :=
    c2_band_powers_and_snr [0] [1500] [0] (by simp) (by simp)
  exact h7

theorem firstIdxGe_some (t : ℝ) :
    ∀ (l : List ℝ) (i : ℕ),
      firstIdxGe t l = some i ↔
        (i < l.length ∧ t ≤ l.getD i 0 ∧ ∀ j, j < i → ¬ t ≤ l.getD j 0)
  | [], i => by simp [firstIdxGe]
  | c :: cs, i => by
    unfold firstIdxGe
    by_cases h : t ≤ c
    · rw [if_pos h]
      constructor
      · intro hi
        obtain rfl : i = 0 := by
          injection hi with h2
          omega
        refine ⟨by simp, by simpa using h, ?_⟩
        intro j hj
        omega
      · rintro ⟨hlen, hge, hmin⟩
        cases i with
        | zero => rfl
        | succ k => exact absurd (by simpa using h) (hmin 0 (by omega))
    · rw [if_neg h]
      cases i with
      | zero =>
        constructor
        · intro hi
          rw [Option.map_eq_some'] at hi
          obtain ⟨a, _, ha⟩ := hi
          omega
        · rintro ⟨hlen, hge, hmin⟩
          exact absurd (by simpa using hge) h
      | succ k =>
        rw [show ((firstIdxGe t cs).map (· + 1) = some (k + 1)) ↔ firstIdxGe t cs = some k from by
          rw [Option.map_eq_some']
          constructor
          · rintro ⟨a, ha, he⟩
            obtain rfl : a = k := by omega
            exact ha
          · intro ha
            exact ⟨k, ha, rfl⟩]
        rw [firstIdxGe_some t cs k]
        constructor
        · rintro ⟨hlen, hge, hmin⟩
          refine ⟨by simpa using hlen, by simpa using hge, ?_⟩
          intro j hj
          cases j with
          | zero => simpa using h
          | succ j2 => simpa using hmin j2 (by omega)
        · rintro ⟨hlen, hge, hmin⟩
          refine ⟨by simpa using hlen, by simpa using hge, ?_⟩
          intro j hj
          simpa using hmin (j + 1) (by omega)

theorem firstIdxGe_none (t : ℝ) :
    ∀ l : List ℝ, firstIdxGe t l = none ↔ ∀ j, j < l.length → ¬ t ≤ l.getD j 0
  | [] => by simp [firstIdxGe]
  | c :: cs => by
    unfold firstIdxGe
    by_cases h : t ≤ c
    · rw [if_pos h]
      constructor
      · intro hi
        cases hi
      · intro hall
        exact absurd (by simpa using h) (hall 0 (by simp))
    · rw [if_neg h]
      rw [Option.map_eq_none', firstIdxGe_none t cs]
      constructor
      · intro hall j hj
        cases j with
        | zero => simpa using h
        | succ j2 => simpa using hall j2 (by simpa using hj)
      · intro hall j hj
        simpa using hall (j + 1) (by simpa using hj)

/-- C4 (amended): for a non-empty spectrum, the spectral rolloff is the
frequency of the lowest-indexed bin whose cumulative `power_db` sum
reaches 85% of the total cumulative sum, and the sentinel `0` when no
bin reaches the threshold; an empty spectrum, however, makes the code
raise (see the counterexample) rather than return the sentinel. -/
theorem c4_spectral_rolloff (audio : List ℝ) (freq : List ℚ) (psd : List ℝ)
    (ha : audio ≠ []) (hp : psd ≠ []) :
    ∃ s, compute_statistics audio freq psd = some s ∧
      ((∃ i, i < (cumsum psd).length
          ∧ 0.85 * (cumsum psd).getLastD 0 ≤ (cumsum psd).getD i 0
          ∧ (∀ j, j < i → ¬ 0.85 * (cumsum psd).getLastD 0 ≤ (cumsum psd).getD j 0)
          ∧ s.spectral_rolloff = freq.getD i 0)
       ∨ ((∀ j, j < (cumsum psd).length →
              ¬ 0.85 * (cumsum psd).getLastD 0 ≤ (cumsum psd).getD j 0)
          ∧ s.spectral_rolloff = 0)) := by
  obtain ⟨a, as, rfl⟩ := List.exists_cons_of_ne_nil ha
  obtain ⟨p0, ps, rfl⟩ := List.exists_cons_of_ne_nil hp
  refine ⟨statsCore a as freq p0 ps, rfl, ?_⟩
  have hro : (statsCore a as freq p0 ps).spectral_rolloff =
      (match firstIdxGe (0.85 * (cumsum (p0 :: ps)).getLastD 0) (cumsum (p0 :: ps)) with
       | some i => freq.getD i 0
       | none => 0) := rfl
  cases hfi : firstIdxGe (0.85 * (cumsum (p0 :: ps)).getLastD 0) (cumsum (p0 :: ps)) with
  | some i =>
    left
    obtain ⟨h1, h2, h3⟩ := (firstIdxGe_some _ _ i).mp hfi
    refine ⟨i, h1, h2, h3, ?_⟩
    rw [hro, hfi]
  | none =>
    right
    refine ⟨(firstIdxGe_none _ _).mp hfi, ?_⟩
    rw [hro, hfi]

/-- Counterexample for C4 as stated: on an empty spectrum the code
evaluates `cumsum[-1]`, which raises IndexError (modelled by `none`)
instead of returning the sentinel rolloff 0. -/
theorem c4_counterexample : compute_statistics [(1 : ℝ)] [] ([] : List ℝ) = none := rfl

/-- Witness for C4 at a one-bin spectrum. -/
theorem c4_witness :
    ∃ s, compute_statistics [(1 : ℝ)] [(0 : ℚ)] [(1 : ℝ)] = some s ∧
      ((∃ i, i < (cumsum [(1 : ℝ)]).length
          ∧ 0.85 * (cumsum [(1 : ℝ)]).getLastD 0 ≤ (cumsum [(1 : ℝ)]).getD i 0
          ∧ (∀ j, j < i → ¬ 0.85 * (cumsum [(1 : ℝ)]).getLastD 0 ≤ (cumsum [(1 : ℝ)]).getD j 0)
          ∧ s.spectral_rolloff = List.getD [(0 : ℚ)] i 0)
       ∨ ((∀ j, j < (cumsum [(1 : ℝ)]).length →
              ¬ 0.85 * (cumsum [(1 : ℝ)]).getLastD 0 ≤ (cumsum [(1 : ℝ)]).getD j 0)
          ∧ s.spectral_rolloff = 0)) :=
  c4_spectral_rolloff [1] [0] [1] (by simp) (by simp)

theorem hann_length (M : ℕ) : (hann M).length = M := by
  unfold hann
  by_cases h : M = 1
  · subst h
    rfl
  · rw [if_neg h, List.length_map, List.length_range]

theorem windowed_length (x : List ℝ) :
    (List.zipWith (· * ·) x (hann x.length)).length = x.length := by
  rw [List.length_zipWith, hann_length, min_self]

/-- C3: the analyzer returns a frequency axis of length `n/2 + 1` in
strictly ascending order with the standard real-FFT bin spacing
`k * sample_rate / n` (for frame length 4 at sample rate 4 the bins are
`[0, 1, 2]` Hz), and a parallel `power_db` sequence equal to
`10 * log10(|rfft(hann(n) * x)|^2 + 1e-10)`: Hann window, real FFT,
squared magnitude, and the `1e-10` additive floor applied before the
logarithm. -/
theorem c3_spectral_shape (sr : ℚ) (hsr : 0 < sr) (x : List ℝ) (hx : x ≠ []) :
    (analyze_frequency_spectrum sr x).1.length = x.length / 2 + 1
  ∧ (analyze_frequency_spectrum sr x).2.length = x.length / 2 + 1
  ∧ List.Pairwise (· < ·) (analyze_frequency_spectrum sr x).1
  ∧ (∀ k, k < x.length / 2 + 1 →
        (analyze_frequency_spectrum sr x).1.getD k 0 = k * sr / x.length)
  ∧ (analyze_frequency_spectrum sr x).2 =
      (List.range (x.length / 2 + 1)).map (fun k =>
        10 * Real.logb 10
          (Complex.abs (dftVal (List.zipWith (· * ·) x (hann x.length)) k) ^ 2 + 1e-10))
  ∧ rfftfreq 4 4 = [0, 1, 2] := by
  have h1 : (analyze_frequency_spectrum sr x).1 = rfftfreq x.length sr := rfl
  have h2 : (analyze_frequency_spectrum sr x).2 =
      ((rfft (List.zipWith (· * ·) x (hann x.length))).map (fun c => Complex.abs c ^ 2)).map
        (fun p => 10 * Real.logb 10 (p + 1e-10)) := rfl
  have hn : (0 : ℚ) < (x.length : ℚ) := by
    have hne : x.length ≠ 0 := by simpa [List.length_eq_zero] using hx
    exact_mod_cast Nat.pos_of_ne_zero hne
  refine ⟨?_, ?_, ?_, ?_, ?_, ?_⟩
  · rw [h1]
    unfold rfftfreq
    rw [List.length_map, List.length_range]
  · rw [h2, List.length_map, List.length_map]
    unfold rfft
    rw [List.length_map, List.length_range, windowed_length]
  · rw [h1]
    unfold rfftfreq
    refine List.Pairwise.map _ ?_ (List.pairwise_lt_range _)
    intro a b hab
    rw [div_lt_div_iff_of_pos_right hn]
    exact mul_lt_mul_of_pos_right (by exact_mod_cast hab) hsr
  · intro k hk
    rw [h1]
    unfold rfftfreq
    rw [List.getD_eq_getElem _ _ (by simpa using hk)]
    simp
  · rw [h2]
    unfold rfft
    rw [windowed_length, List.map_map, List.map_map]
    rfl
  · unfold rfftfreq
    norm_num [List.range_succ]

/-- Witness for C3: frame length 4 at sample rate 4. -/
theorem c3_witness :
    (analyze_frequency_spectrum 4 [(1 : ℝ), 0, 0, 0]).1.length =
        ([(1 : ℝ), 0, 0, 0] : List ℝ).length / 2 + 1
  ∧ (analyze_frequency_spectrum 4 [(1 : ℝ), 0, 0, 0]).2.length =
        ([(1 : ℝ), 0, 0, 0] : List ℝ).length / 2 + 1
  ∧ List.Pairwise (· < ·) (analyze_frequency_spectrum 4 [(1 : ℝ), 0, 0, 0]).1
  ∧ (∀ k, k < ([(1 : ℝ), 0, 0, 0] : List ℝ).length / 2 + 1 →
        (analyze_frequency_spectrum 4 [(1 : ℝ), 0, 0, 0]).1.getD k 0 =
          k * 4 / ([(1 : ℝ), 0, 0, 0] : List ℝ).length)
  ∧ (analyze_frequency_spectrum 4 [(1 : ℝ), 0, 0, 0]).2 =
      (List.range (([(1 : ℝ), 0, 0, 0] : List ℝ).length / 2 + 1)).map (fun k =>
        10 * Real.logb 10
          (Complex.abs (dftVal (List.zipWith (· * ·) [(1 : ℝ), 0, 0, 0]
            (hann ([(1 : ℝ), 0, 0, 0] : List ℝ).length)) k) ^ 2 + 1e-10))
  ∧ rfftfreq 4 4 = [0, 1, 2] :=
  c3_spectral_shape 4 (by decide) [(1 : ℝ), 0, 0, 0] (by simp)

theorem mem_putDropOldest {α : Type} (K : ℕ) (buf : List α) (t x : α)
    (hx : x ∈ putDropOldest K buf t) : x ∈ buf ∨ x = t := by
  unfold putDropOldest at hx
  split at hx
  · rcases List.mem_append.mp hx with h | h
    · exact Or.inl h
    · exact Or.inr (by simpa using h)
  · rcases List.mem_append.mp hx with h | h
    · exact Or.inl (List.mem_of_mem_tail h)
    · exact Or.inr (by simpa using h)

theorem putDropOldest_eq_append {α : Type} (K : ℕ) (buf : List α) (t : α) :
    ∃ pre, List.Sublist pre buf ∧ putDropOldest K buf t = pre ++ [t] := by
  unfold putDropOldest
  split
  · exact ⟨buf, List.Sublist.refl buf, rfl⟩
  · exact ⟨buf.tail, List.tail_sublist buf, rfl⟩

theorem enqStamps_enq (t : ℚ) (ops : List QueueOp) :
    enqStamps (QueueOp.enq t :: ops) = t :: enqStamps ops := rfl

theorem enqStamps_deq (ops : List QueueOp) :
    enqStamps (QueueOp.deq :: ops) = enqStamps ops := rfl

theorem traceRun_inv (K : ℕ) :
    ∀ (ops : List QueueOp) (s : TraceState),
      (s.hist ++ s.buf).Sorted (· ≤ ·) →
      s.hist.length = s.analyzed →
      (∀ x ∈ s.hist ++ s.buf, ∀ t ∈ enqStamps ops, x ≤ t) →
      (enqStamps ops).Sorted (· ≤ ·) →
      ((ops.foldl (traceStep K) s).hist ++ (ops.foldl (traceStep K) s).buf).Sorted (· ≤ ·)
      ∧ (ops.foldl (traceStep K) s).hist.length = (ops.foldl (traceStep K) s).analyzed := by
  intro ops
  induction ops with
  | nil =>
    intro s h1 h2 _ _
    exact ⟨h1, h2⟩
  | cons op rest ih =>
    intro s h1 h2 h3 h4
    rw [List.foldl_cons]
    cases op with
    | enq t =>
      rw [enqStamps_enq] at h3 h4
      obtain ⟨pre, hsub, heq⟩ := putDropOldest_eq_append K s.buf t
      have hmemsub : ∀ x, x ∈ s.hist ++ pre → x ∈ s.hist ++ s.buf := by
        intro x hx
        rcases List.mem_append.mp hx with h | h
        · exact List.mem_append.mpr (Or.inl h)
        · exact List.mem_append.mpr (Or.inr (hsub.mem h))
      apply ih
      · show ((traceStep K s (QueueOp.enq t)).hist ++ (traceStep K s (QueueOp.enq t)).buf).Sorted _
        show (s.hist ++ putDropOldest K s.buf t).Sorted (· ≤ ·)
        rw [heq, ← List.append_assoc]
        rw [List.Sorted, List.pairwise_append]
        refine ⟨List.Pairwise.sublist (List.Sublist.append_left hsub s.hist) h1, ?_, ?_⟩
        · simp
        · intro a ha b hb
          have hbt : b = t := by simpa using hb
          rw [hbt]
          exact h3 a (hmemsub a ha) t (List.mem_cons_self _ _)
      · exact h2
      · show ∀ x ∈ s.hist ++ putDropOldest K s.buf t, ∀ u ∈ enqStamps rest, x ≤ u
        intro x hx u hu
        rcases List.mem_append.mp hx with h | h
        · exact h3 x (List.mem_append.mpr (Or.inl h)) u (by simp [hu])
        · rcases mem_putDropOldest K s.buf t x h with h | rfl
          · exact h3 x (List.mem_append.mpr (Or.inr h)) u (by simp [hu])
          · exact (List.sorted_cons.mp h4).1 u hu
      · exact (List.sorted_cons.mp h4).2
    | deq =>
      rw [enqStamps_deq] at h3 h4
      cases hbuf : s.buf with
      | nil =>
        have hstep : traceStep K s QueueOp.deq = s := by
          unfold traceStep
          rw [hbuf]
        rw [hstep]
        exact ih s h1 h2 h3 h4
      | cons b rest2 =>
        have hstep : traceStep K s QueueOp.deq =
            { buf := rest2, hist := s.hist ++ [b], analyzed := s.analyzed + 1 } := by
          unfold traceStep
          rw [hbuf]
        rw [hstep]
        have hre : (s.hist ++ [b]) ++ rest2 = s.hist ++ s.buf := by
          rw [hbuf, List.append_assoc, List.singleton_append]
        apply ih
        · show ((s.hist ++ [b]) ++ rest2).Sorted (· ≤ ·)
          rw [hre]
          exact h1
        · show (s.hist ++ [b]).length = s.analyzed + 1
          rw [List.length_append, h2, List.length_singleton]
        · show ∀ x ∈ (s.hist ++ [b]) ++ rest2, ∀ u ∈ enqStamps rest, x ≤ u
          rw [hre]
          exact h3
        · exact h4

/-- C9: along any interleaving of worker enqueues and coordinator
dequeues of one stream, the history holds exactly one entry per frame
successfully dequeued and analyzed, and — provided the worker stamped
its frames with non-decreasing wall-clock times — the timestamps stored
in the history are non-decreasing.  (The history is written only in the
dequeue branch, i.e. only by the coordinator.) -/
theorem c9_history_invariants (K : ℕ) (ops : List QueueOp)
    (hmono : (enqStamps ops).Sorted (· ≤ ·)) :
    (traceRun K ops).hist.length = (traceRun K ops).analyzed
  ∧ (traceRun K ops).hist.Sorted (· ≤ ·) := by
  have h := traceRun_inv K ops { buf := [], hist := [], analyzed := 0 }
    (by simp [List.Sorted]) rfl (by simp) hmono
  exact ⟨h.2, List.Pairwise.sublist (List.sublist_append_left _ _) h.1⟩

/-- Witness for C9: enqueue stamps 1, 2, 3 with interleaved dequeues at
capacity 2. -/
theorem c9_witness :
    (traceRun 2 [QueueOp.enq 1, QueueOp.enq 2, QueueOp.deq,
        QueueOp.enq 3, QueueOp.deq]).hist.length =
      (traceRun 2 [QueueOp.enq 1, QueueOp.enq 2, QueueOp.deq,
        QueueOp.enq 3, QueueOp.deq]).analyzed
  ∧ (traceRun 2 [QueueOp.enq 1, QueueOp.enq 2, QueueOp.deq,
        QueueOp.enq 3, QueueOp.deq]).hist.Sorted (· ≤ ·) :=
  c9_history_invariants 2 _ (by decide)

theorem putDropOldest_nil {α : Type} (K : ℕ) (x : α) : putDropOldest K [] x = [x] := by
  unfold putDropOldest
  split
  · rfl
  · rfl

theorem workerTick_hist (cs K : ℕ) (s : StreamState) : (workerTick cs K s).hist = s.hist := by
  unfold workerTick
  split
  · split
    · rfl
    · split
      · rfl
      · rfl
  · rfl

theorem drainTick_hist_extend (s : StreamState) :
    ∃ ext, (drainTick s).hist = s.hist ++ ext := by
  unfold drainTick
  cases hb : s.buf with
  | nil => exact ⟨[], by simp⟩
  | cons f rest => exact ⟨[f], rfl⟩

theorem streamTick_hist_extend (cs K : ℕ) (s : StreamState) :
    ∃ ext, (streamTick cs K s).hist = s.hist ++ ext := by
  obtain ⟨ext, he⟩ := drainTick_hist_extend (workerTick cs K s)
  refine ⟨ext, ?_⟩
  show (drainTick (workerTick cs K s)).hist = s.hist ++ ext
  rw [he, workerTick_hist]

theorem streamRun_hist_extend (cs K : ℕ) :
    ∀ (d : ℕ) (s : StreamState), ∃ ext, (streamRun cs K d s).hist = s.hist ++ ext
  | 0, s => ⟨[], by simp [streamRun]⟩
  | d + 1, s => by
    obtain ⟨e1, h1⟩ := streamTick_hist_extend cs K s
    obtain ⟨e2, h2⟩ := streamRun_hist_extend cs K d (streamTick cs K s)
    refine ⟨e1 ++ e2, ?_⟩
    show (streamRun cs K d (streamTick cs K s)).hist = s.hist ++ (e1 ++ e2)
    rw [h2, h1, List.append_assoc]

theorem streamTick_dead (cs K : ℕ) (rs : List (List ℕ)) (h : List (List ℚ)) :
    streamTick cs K { reads := rs, alive := false, buf := [], hist := h } =
      { reads := rs, alive := false, buf := [], hist := h } := rfl

theorem streamRun_dead (cs K : ℕ) (rs : List (List ℕ)) (h : List (List ℚ)) :
    ∀ d, streamRun cs K d { reads := rs, alive := false, buf := [], hist := h } =
      { reads := rs, alive := false, buf := [], hist := h }
  | 0 => rfl
  | d + 1 => by
    show streamRun cs K d (streamTick cs K _) = _
    rw [streamTick_dead]
    exact streamRun_dead cs K rs h d

theorem streamTick_init_deadRead (cs K : ℕ) (rs : List (List ℕ)) :
    streamTick cs K (initStream ([] :: rs)) =
      { reads := rs, alive := false, buf := [], hist := [] } := rfl

theorem streamTick_init_goodRead (cs K : ℕ) (b : ℕ) (bs : List ℕ) (rs : List (List ℕ)) :
    streamTick cs K (initStream ((b :: bs) :: rs)) =
      { reads := rs, alive := true, buf := [],
        hist := [bytesToSamples (padTo (2 * cs) (b :: bs))] } := by
  show drainTick
      (StreamState.mk rs true (putDropOldest K [] (bytesToSamples (padTo (2 * cs) (b :: bs)))) [])
    = _
  rw [putDropOldest_nil]
  rfl

theorem getD_map_lt {α β : Type} (g : α → β) (d1 : β) (d2 : α) :
    ∀ (l : List α) (j : ℕ), j < l.length → (l.map g).getD j d1 = g (l.getD j d2) := by
  intro l j hj
  rw [List.getD_eq_getElem _ _ (by simpa using hj), List.getD_eq_getElem _ _ hj]
  simp

/-- C5: when one stream's source returns zero bytes on its first read,
only that worker terminates: its `alive` flag is cleared and its history
stays empty, while the run still reaches `DONE` within its tick budget
and every other stream (whose source produces data) accumulates a
non-empty history. -/
theorem c5_dead_stream_isolation (cs K d : ℕ) (hd : 0 < d)
    (sources : List (List (List ℕ))) (i : ℕ)
    (hdead : ∃ rs, sources.getD i [] = [] :: rs)
    (halive : ∀ j, j < sources.length → j ≠ i →
        ∃ b bs rs, sources.getD j [] = (b :: bs) :: rs) :
    (analyze_streams cs K d sources).2 = Phase.DONE
  ∧ (∀ j, j < sources.length → j ≠ i →
        (analyze_streams cs K d sources).1.getD j [] ≠ [])
  ∧ (i < sources.length →
        (analyze_streams cs K d sources).1.getD i [] = []
        ∧ (streamRun cs K d (initStream (sources.getD i []))).alive = false) := by
  obtain ⟨e, rfl⟩ : ∃ e, d = e + 1 := ⟨d - 1, by omega⟩
  refine ⟨rfl, ?_, ?_⟩
  · intro j hj hne
    have hm : (analyze_streams cs K (e + 1) sources).1.getD j [] =
        (streamRun cs K (e + 1) (initStream (sources.getD j []))).hist := by
      show ((sources.map fun src => (streamRun cs K (e + 1) (initStream src)).hist).getD j [])
        = _
      exact getD_map_lt _ [] [] sources j hj
    rw [hm]
    obtain ⟨b, bs, rs, hsrc⟩ := halive j hj hne
    rw [hsrc]
    have h1 : streamRun cs K (e + 1) (initStream ((b :: bs) :: rs)) =
        streamRun cs K e (streamTick cs K (initStream ((b :: bs) :: rs))) := rfl
    rw [h1, streamTick_init_goodRead]
    obtain ⟨ext, hext⟩ := streamRun_hist_extend cs K e
      (StreamState.mk rs true [] [bytesToSamples (padTo (2 * cs) (b :: bs))])
    rw [hext]
    simp
  · intro hi
    obtain ⟨rs, hsrc⟩ := hdead
    have hm : (analyze_streams cs K (e + 1) sources).1.getD i [] =
        (streamRun cs K (e + 1) (initStream (sources.getD i []))).hist := by
      show ((sources.map fun src => (streamRun cs K (e + 1) (initStream src)).hist).getD i [])
        = _
      exact getD_map_lt _ [] [] sources i hi
    have h1 : streamRun cs K (e + 1) (initStream ([] :: rs)) =
        streamRun cs K e { reads := rs, alive := false, buf := [], hist := [] } := by
      show streamRun cs K e (streamTick cs K (initStream ([] :: rs))) = _
      rw [streamTick_init_deadRead]
    constructor
    · rw [hm, hsrc, h1, streamRun_dead]
    · rw [hsrc, h1, streamRun_dead]

/-- Witness for C5: two streams with one tick; stream 0's source
returns zero bytes immediately, stream 1 delivers one two-byte read. -/
theorem c5_witness :
    (analyze_streams 1 1 1 [[[]], [[5, 0]]]).2 = Phase.DONE
  ∧ (∀ j, j < ([[[]], [[5, 0]]] : List (List (List ℕ))).length → j ≠ 0 →
        (analyze_streams 1 1 1 [[[]], [[5, 0]]]).1.getD j [] ≠ [])
  ∧ (0 < ([[[]], [[5, 0]]] : List (List (List ℕ))).length →
        (analyze_streams 1 1 1 [[[]], [[5, 0]]]).1.getD 0 [] = []
        ∧ (streamRun 1 1 1 (initStream (([[[]], [[5, 0]]] :
            List (List (List ℕ))).getD 0 []))).alive = false) :=
  c5_dead_stream_isolation 1 1 1 (by decide) [[[]], [[5, 0]]] 0
    ⟨[], rfl⟩
    (fun j hj hne =>
      match j, hj, hne with
      | 0, _, hne2 => absurd rfl hne2
      | 1, _, _ => ⟨5, [0], [], rfl⟩
      | (n + 2), hj2, _ =>
        absurd hj2 (by simp only [List.length_cons, List.length_nil]; omega))

end LyreBird
